import Mathlib

/-!
Verification of the 3-2-1 newsletter search repository.

This file shallowly embeds the two algorithmic cores of the repository:

* the query-facing retriever `search_newsletter` in `src/mcp_server.py`
  (date parsing, rerank sort, score/date filtering, limit capping), and
* the chunker `parse_newsletter` in `src/pipeline/utils.py`
  (section splitting, Roman-numeral segmentation, quote attribution).

Modelling conventions:

* Python strings are `List Char` (wrapped in `String` at data-model
  boundaries); the only line terminator modelled is the newline
  character, which is the terminator occurring in the data this
  program processes.
* Rerank scores (real-valued logits in the source) are modelled as
  `Int`: every claim under verification depends only on the ordered
  structure of scores, never on floating-point specifics.
* The embedding model, the cross-encoder and the vector index are
  black boxes in the source; the retriever is therefore modelled as a
  function of the initial-retrieval hit list and the parallel list of
  rerank scores, exactly as the Python code consumes them.
* Python regex scanning (leftmost match, greedy with backtracking) is
  modelled by equivalent deterministic character scanners; each
  scanner's doc comment names the regex it embeds.
-/

/-- Whitespace characters recognised by Python `str.strip` / regex
whitespace for the ASCII text this program processes. -/
def pyIsSpace (c : Char) : Bool :=
  c == ' ' || c == '\t' || c == '\n' || c == '\r' || c == '\x0b' || c == '\x0c'

/-- Drop trailing whitespace, as the right half of Python `str.strip`. -/
def dropTrailingWs (l : List Char) : List Char :=
  (l.reverse.dropWhile pyIsSpace).reverse

/-- Python `str.strip()`: drop leading and trailing whitespace. -/
def pyStrip (l : List Char) : List Char :=
  dropTrailingWs (l.dropWhile pyIsSpace)

/-- Split on newline characters, keeping empty pieces, as Python
`str.split("\n")` (and agreeing with `str.splitlines` after blank
pieces are filtered, which is the only way the program uses it). -/
def splitNl : List Char → List (List Char)
  | [] => [[]]
  | c :: rest =>
    if c = '\n' then [] :: splitNl rest
    else (splitNl rest).modifyHead (c :: ·)

/-- Truthiness of `s.strip()` in Python: the line is kept by
`trim_empty_lines` when it has a non-whitespace character. -/
def keepLine (l : List Char) : Bool := !(pyStrip l).isEmpty

/-- Model of `trim_empty_lines` from `src/pipeline/utils.py`:
`"\n".join([s for s in text.strip().splitlines() if s.strip()]).strip()`. -/
def trimEmptyLines (l : List Char) : List Char :=
  pyStrip (List.intercalate ['\n'] ((splitNl (pyStrip l)).filter keepLine))

/-- Python substring membership `pat in s`. -/
def hasSub (pat : List Char) : List Char → Bool
  | [] => pat.isEmpty
  | c :: rest => pat.isPrefixOf (c :: rest) || hasSub pat rest

/-! ## Retriever: date parsing (`datetime.strptime(s, "%Y-%m-%d")`) -/

/-- A calendar date as produced by `datetime.strptime(s, "%Y-%m-%d")`. -/
structure Date where
  year : Nat
  month : Nat
  day : Nat
deriving DecidableEq, Repr

/-- Comparison of `datetime` objects: lexicographic on (year, month, day). -/
def dateLt (a b : Date) : Bool :=
  decide (a.year < b.year) ||
    (decide (a.year = b.year) &&
      (decide (a.month < b.month) ||
        (decide (a.month = b.month) && decide (a.day < b.day))))

/-- Numeric value of a digit string (only applied to all-digit lists). -/
def charsToNat (cs : List Char) : Nat :=
  cs.foldl (fun n c => n * 10 + (c.toNat - 48)) 0

/-- Split a character list at the first dash, if any. -/
def splitFirstDash : List Char → Option (List Char × List Char)
  | [] => none
  | c :: rest =>
    if c = '-' then some ([], rest)
    else
      match splitFirstDash rest with
      | some (l, r) => some (c :: l, r)
      | none => none

/-- CPython `_strptime` field patterns for `%m` (`1[0-2]|0[1-9]|[1-9]`) and
`%d` (`3[01]|[12]\d|0[1-9]|[1-9]`): one or two digit characters whose value
lies in `1..hi`. -/
def validTwo (cs : List Char) (hi : Nat) : Bool :=
  (cs.length == 1 || cs.length == 2) && cs.all Char.isDigit &&
    decide (1 ≤ charsToNat cs) && decide (charsToNat cs ≤ hi)

/-- Gregorian leap-year rule, as used by `datetime`. -/
def isLeap (y : Nat) : Bool :=
  y % 4 == 0 && (y % 100 != 0 || y % 400 == 0)

/-- Days in a month, as validated by the `datetime` constructor. -/
def daysInMonth (y m : Nat) : Nat :=
  if m == 2 then (if isLeap y then 29 else 28)
  else if m == 4 || m == 6 || m == 9 || m == 11 then 30
  else 31

/-- Model of `datetime.strptime(s, "%Y-%m-%d")` on a character list: CPython requires
exactly four digits for `%Y`, one or two digits valued `1..12` for `%m`,
one or two digits valued `1..31` for `%d`, the whole string consumed, and
the `datetime` constructor then validates the day against the month and
rejects year 0 (`MINYEAR = 1`). Returns `none` exactly when the Python
call raises `ValueError`. -/
def pyStrptimeYmdL (cs : List Char) : Option Date :=
  match cs with
  | y1 :: y2 :: y3 :: y4 :: '-' :: rest =>
    if y1.isDigit && y2.isDigit && y3.isDigit && y4.isDigit then
      match splitFirstDash rest with
      | some (mcs, dcs) =>
        if validTwo mcs 12 && validTwo dcs 31 then
          if decide (1 ≤ charsToNat [y1, y2, y3, y4]) &&
              decide (charsToNat dcs ≤ daysInMonth (charsToNat [y1, y2, y3, y4]) (charsToNat mcs)) then
            some ⟨charsToNat [y1, y2, y3, y4], charsToNat mcs, charsToNat dcs⟩
          else none
        else none
      | none => none
    else none
  | _ => none

/-- Model of `datetime.strptime(s, "%Y-%m-%d")` on a `String`. -/
def pyStrptimeYmd (s : String) : Option Date := pyStrptimeYmdL s.data

/-- A well-formed `YYYY-MM-DD` date string as the spec uses the phrase:
four year digits, dash, two month digits, dash, two day digits, denoting
a valid calendar date (year at least 1). This definition follows the
spec wording and is compared against the source-derived parser. -/
def wellFormedYMD (s : String) : Bool :=
  match s.data with
  | [a, b, c, d, '-', e, f, '-', g, h] =>
    a.isDigit && b.isDigit && c.isDigit && d.isDigit &&
      e.isDigit && f.isDigit && g.isDigit && h.isDigit &&
      decide (1 ≤ charsToNat [a, b, c, d]) &&
      decide (1 ≤ charsToNat [e, f]) && decide (charsToNat [e, f] ≤ 12) &&
      decide (1 ≤ charsToNat [g, h]) &&
      decide (charsToNat [g, h] ≤ daysInMonth (charsToNat [a, b, c, d]) (charsToNat [e, f]))
  | _ => false

/-! ## Retriever: data model and `search_newsletter` -/

/-- The payload stored with each indexed point, as read back by
`hit.payload.get(...)` in `search_newsletter`. An absent key is `none`. -/
structure Payload where
  title : Option String := none
  date : Option String := none
  category : Option String := none
  url : Option String := none
  text : Option String := none
deriving DecidableEq, Repr

/-- One entry of the `results` list built by `search_newsletter`. -/
structure ResultItem where
  title : String
  date : String
  category : String
  url : String
  text : String
  score : Int
deriving DecidableEq, Repr

/-- The echoed `filters` sub-dictionary of the response. -/
structure Filters where
  fromDate : Option String
  toDate : Option String
  minScore : Int
deriving DecidableEq, Repr

/-- The value returned by `search_newsletter`: either the error
dictionary `{"error": msg}` or the success dictionary with query,
filters, total count and results. -/
inductive SearchResult where
  | error (msg : String)
  | ok (query : String) (filters : Filters) (totalResults : Nat) (results : List ResultItem)
deriving DecidableEq, Repr

/-- A candidate paired with its rerank score, as in
`reranked_results = list(zip(hits, cross_scores))`. -/
abbrev Cand := Payload × Int

/-- Insertion step of the stable descending sort: the new element is
placed before the first element whose score is less than or equal to
its own. -/
def insertDesc (c : Cand) : List Cand → List Cand
  | [] => [c]
  | d :: ds => if d.2 ≤ c.2 then c :: d :: ds else d :: insertDesc c ds

/-- Model of `sorted(reranked_results, key=lambda x: x[1], reverse=True)`:
Python guarantees a stable descending sort, whose output is uniquely
determined as the permutation that is non-increasing on scores with
equal-score elements in input order; this insertion sort produces
exactly that output. -/
def sortRerank : List Cand → List Cand
  | [] => []
  | c :: cs => insertDesc c (sortRerank cs)

/-- The per-candidate date filter from the loop body of
`search_newsletter` (lines 158-173): a missing or empty date string
skips date filtering, an unparseable one is leniently passed through,
and a parsed date is kept iff it is not strictly before `from` and not
strictly after `to`. -/
def passesDate (f t : Option Date) (p : Payload) : Bool :=
  match p.date with
  | none => true
  | some ds =>
    if ds = "" then true
    else
      match pyStrptimeYmd ds with
      | none => true
      | some d =>
        (match f with
         | some fd => !(dateLt d fd)
         | none => true) &&
        (match t with
         | some td => !(dateLt td d)
         | none => true)

/-- The filter loop of `search_newsletter`: drop candidates scoring
below `min_score`, drop candidates failing the date filter, append the
rest, and break as soon as `len(filtered_results) >= limit` after an
append. -/
def filterLimit (minScore : Int) (f t : Option Date) (limit : Int) : List Cand → List Cand
  | [] => []
  | c :: rest =>
    if c.2 < minScore then filterLimit minScore f t limit rest
    else if !passesDate f t c.1 then filterLimit minScore f t limit rest
    else if limit ≤ 1 then [c]
    else c :: filterLimit minScore f t (limit - 1) rest

/-- The same filter without the limit cut-off: all candidates that
survive the score and date filters, in order. -/
def filterAll (minScore : Int) (f t : Option Date) (l : List Cand) : List Cand :=
  l.filter (fun c => !decide (c.2 < minScore) && passesDate f t c.1)

/-- Building one structured result entry (lines 195-206 of the source). -/
def toResultItem (c : Cand) : ResultItem :=
  { title := c.1.title.getD ""
    date := c.1.date.getD ""
    category := c.1.category.getD ""
    url := c.1.url.getD ""
    text := c.1.text.getD ""
    score := c.2 }

/-- Error message for an invalid `from_date` (quotes of the original
message elided). -/
def fromDateMsg : String := "Invalid from_date format. Use YYYY-MM-DD (e.g. 2019-10-10)"

/-- Error message for an invalid `to_date`. -/
def toDateMsg : String := "Invalid to_date format. Use YYYY-MM-DD (e.g. 2023-12-31)"

/-- Parse one optional date bound, returning the error dictionary's
message when `datetime.strptime` raises. -/
def parseBound (msg : String) : Option String → Except String (Option Date)
  | none => Except.ok none
  | some s =>
    match pyStrptimeYmd s with
    | some d => Except.ok (some d)
    | none => Except.error msg

/-- The default of the `min_score` parameter: `min_score: float = 0.0`. -/
def defaultMinScore : Int := 0

/-- Model of `search_newsletter(query, from_date, to_date, min_score, limit)` from
`src/mcp_server.py`, as a function of the initial-retrieval hits and the
parallel rerank scores (the two black-box model outputs). Dates are
parsed first (`from_date` before `to_date`), then the empty-hits early
return, then rerank-sort, filter with limit, and response assembly with
`total_results = len(results)`. -/
def searchNewsletter (query : String) (fromDate toDate : Option String)
    (minScore limit : Int) (hits : List Payload) (cross : List Int) : SearchResult :=
  match parseBound fromDateMsg fromDate with
  | Except.error e => SearchResult.error e
  | Except.ok f =>
    match parseBound toDateMsg toDate with
    | Except.error e => SearchResult.error e
    | Except.ok t =>
      if hits.isEmpty then SearchResult.ok query ⟨fromDate, toDate, minScore⟩ 0 []
      else if (filterLimit minScore f t limit (sortRerank (hits.zip cross))).isEmpty then
        SearchResult.ok query ⟨fromDate, toDate, minScore⟩ 0 []
      else
        SearchResult.ok query ⟨fromDate, toDate, minScore⟩
          ((filterLimit minScore f t limit (sortRerank (hits.zip cross))).map toResultItem).length
          ((filterLimit minScore f t limit (sortRerank (hits.zip cross))).map toResultItem)

/-! ## Chunker: `parse_newsletter` from `src/pipeline/utils.py` -/

/-- The literal that opens a share-boilerplate line. -/
def shareLit : List Char := "[Share this on".data

/-- Scanner for `re.sub(r"^\[Share this on.*\n?", "", md_text, flags=re.MULTILINE)`:
at each line start, a line beginning with the literal is removed together
with its terminating newline; `skipping` is true while inside such a line
and `atLS` tracks whether the current position follows a newline. -/
def rslAux (skipping atLS : Bool) : List Char → List Char
  | [] => []
  | c :: rest =>
    if skipping then
      if c = '\n' then rslAux false true rest
      else rslAux true false rest
    else if atLS && shareLit.isPrefixOf (c :: rest) then rslAux true false rest
    else c :: rslAux false (c == '\n') rest

/-- Remove every share-boilerplate line from the body. -/
def removeShareLines (cs : List Char) : List Char := rslAux false true cs

/-- Scanner for `re.split(r"^##\s+", clean_text, flags=re.MULTILINE)`: at a
line start, `##` followed by at least one whitespace character (the greedy
`\s+` also crosses newlines) is a separator. `sep` is true while consuming
separator whitespace, `atLS` tracks whether the current position follows a
newline (or is the start), `pend` counts `#` characters provisionally
consumed at a line start (flushed back into the piece when the separator
pattern fails to complete), and `cur` accumulates the current piece
reversed. -/
def splitSecAux (sep atLS : Bool) (pend : Nat) (cur : List Char) : List Char → List (List Char)
  | [] => [(List.replicate pend '#' ++ cur).reverse]
  | c :: rest =>
    if pend == 1 then
      if c = '#' then splitSecAux false atLS 2 cur rest
      else splitSecAux false (c == '\n') 0 (c :: '#' :: cur) rest
    else if pend == 2 then
      if pyIsSpace c then cur.reverse :: splitSecAux true (c == '\n') 0 [] rest
      else splitSecAux false (c == '\n') 0 (c :: '#' :: '#' :: cur) rest
    else
      if sep && pyIsSpace c then splitSecAux true (c == '\n') 0 cur rest
      else if atLS && c == '#' then splitSecAux false atLS 1 cur rest
      else splitSecAux false (c == '\n') 0 (c :: cur) rest

/-- Split the cleaned body into sections on level-2 heading markers. -/
def splitSections (cs : List Char) : List (List Char) := splitSecAux false true 0 [] cs

/-- Fueled scanner for Python `str.replace(old, "")` with a non-empty
pattern: scan left to right, removing each non-overlapping occurrence;
replaced text is not rescanned. Fuel equal to the input length always
suffices because every step consumes at least one character. -/
def removeAllSubF (pat : List Char) : Nat → List Char → List Char
  | 0, cs => cs
  | _ + 1, [] => []
  | fuel + 1, c :: rest =>
    if pat.isPrefixOf (c :: rest) && !pat.isEmpty then
      removeAllSubF pat fuel (rest.drop (pat.length - 1))
    else c :: removeAllSubF pat fuel rest

/-- Python `s.replace(pat, "")` for a non-empty pattern. -/
def removeAllSub (pat cs : List Char) : List Char := removeAllSubF pat cs.length cs

/-- Python `s.split(pat)[0]`: the text before the first occurrence of the
pattern, or the whole text when the pattern does not occur. -/
def cutBeforeSub (pat : List Char) : List Char → List Char
  | [] => []
  | c :: rest => if pat.isPrefixOf (c :: rest) then [] else c :: cutBeforeSub pat rest

/-- A Roman-numeral character, as the character class `[IVX]`. -/
def isIVX (c : Char) : Bool := c == 'I' || c == 'V' || c == 'X'

/-- Scanner for `re.split(r"[IVX]+\.", section)`: a separator is a maximal
run of `[IVX]` characters immediately followed by a period (the leftmost
match starts at the run's first character, and greedy matching with
backtracking succeeds exactly when the maximal run is followed by the
period). `cur` is the current piece reversed; `run` is the pending
reversed `[IVX]` run not yet known to be a separator. -/
def srm (cur run : List Char) : List Char → List (List Char)
  | [] => [(run ++ cur).reverse]
  | c :: rest =>
    if isIVX c then srm cur (c :: run) rest
    else if c == '.' && !run.isEmpty then cur.reverse :: srm [] [] rest
    else srm (c :: (run ++ cur)) [] rest

/-- Split a section on Roman-numeral list markers. -/
def splitRoman (cs : List Char) : List (List Char) := srm [] [] cs

/-- Count the Roman-numeral list markers (separator matches of
`[IVX]+\.`) in a section; `pending` records whether a non-empty `[IVX]`
run immediately precedes the current position. -/
def countRomanAux (pending : Bool) : List Char → Nat
  | [] => 0
  | c :: rest =>
    if isIVX c then countRomanAux true rest
    else if c == '.' && pending then 1 + countRomanAux false rest
    else countRomanAux false rest

/-- Number of Roman-numeral list markers in a section. -/
def countRoman (cs : List Char) : Nat := countRomanAux false cs

/-- The chunk dictionary produced by `parse_newsletter`, with the
metadata fields flattened: `source` and `sourceName` are only set for
quote chunks (`none` elsewhere, matching the absent keys). -/
structure Chunk where
  text : String
  category : String
  index : Nat
  date : String
  source : Option String := none
  sourceName : Option String := none
deriving DecidableEq, Repr

/-- The idea-chunk loop `for i, idea in enumerate(ideas[1:], 1)`:
each segment becomes an `idea` chunk with the fixed text prefix. -/
def ideaChunksFrom (date : String) : Nat → List (List Char) → List Chunk
  | _, [] => []
  | i, seg :: rest =>
    { text := String.mk ("Idea from James Clear: ".data ++ trimEmptyLines seg)
      category := "idea", index := i, date := date } :: ideaChunksFrom date (i + 1) rest

/-- Attempt to match the link pattern `\[([^\]]+)\]\([^\)]+\)` at the
start of the list, returning the captured title and the remainder after
the match: both the title (up to the first `]`) and the url (up to the
first `)`) must be non-empty, and the `](` must be adjacent. -/
def tryLinkAt : List Char → Option (List Char × List Char)
  | '[' :: r =>
    if (r.takeWhile (fun c => c ≠ ']')).isEmpty then none
    else
      match r.dropWhile (fun c => c ≠ ']') with
      | ']' :: '(' :: r2 =>
        if (r2.takeWhile (fun c => c ≠ ')')).isEmpty then none
        else
          match r2.dropWhile (fun c => c ≠ ')') with
          | ')' :: r3 => some (r.takeWhile (fun c => c ≠ ']'), r3)
          | _ => none
      | _ => none
  | _ => none

/-- Fueled scanner for `clean_links`, i.e.
`re.sub(r"\[([^\]]+)\]\([^\)]+\)", r"\1", text)`: each leftmost
non-overlapping match is replaced by its captured title and scanning
resumes after the match; fuel equal to the input length suffices. -/
def cleanLinksF : Nat → List Char → List Char
  | 0, cs => cs
  | _ + 1, [] => []
  | fuel + 1, c :: rest =>
    match tryLinkAt (c :: rest) with
    | some (title, r3) => title ++ cleanLinksF fuel r3
    | none => c :: cleanLinksF fuel rest

/-- Model of `clean_links` from `src/pipeline/utils.py`. -/
def cleanLinks (cs : List Char) : List Char := cleanLinksF cs.length cs

/-- The attribution literal `*Source:*`. -/
def srcLit : List Char := "*Source:*".data

/-- Attempt the quote-attribution link pattern
`\*Source:\*\s*\[([^\]]+)\]\(([^\)]+)\)` at the start of the list,
returning the raw captured title and url. After the literal, the greedy
`\s*` consumes all whitespace (no shorter prefix can expose a `[`), and
the bracketed parts behave as in `tryLinkAt`. -/
def trySourceLinkAt (cs : List Char) : Option (List Char × List Char) :=
  if srcLit.isPrefixOf cs then
    match (cs.drop srcLit.length).dropWhile pyIsSpace with
    | '[' :: r =>
      if (r.takeWhile (fun c => c ≠ ']')).isEmpty then none
      else
        match r.dropWhile (fun c => c ≠ ']') with
        | ']' :: '(' :: r2 =>
          if (r2.takeWhile (fun c => c ≠ ')')).isEmpty then none
          else
            match r2.dropWhile (fun c => c ≠ ')') with
            | ')' :: _ => some (r.takeWhile (fun c => c ≠ ']'), r2.takeWhile (fun c => c ≠ ')'))
            | _ => none
        | _ => none
    | _ => none
  else none

/-- Scan as `re.search` of the attribution link pattern: try every position left
to right. -/
def findSourceLink : List Char → Option (List Char × List Char)
  | [] => none
  | c :: rest =>
    match trySourceLinkAt (c :: rest) with
    | some tu => some tu
    | none => findSourceLink rest

/-- Attempt the plain-text fallback `\*Source:\*\s*(.+)$` (MULTILINE) at
the start of the list. After the literal, greedy `\s*` then `(.+)` up to
the line end; when everything after the literal is whitespace,
backtracking surrenders whitespace back to `(.+)`, capturing the last
character not part of a trailing newline run. -/
def trySourceTextAt (cs : List Char) : Option (List Char) :=
  if srcLit.isPrefixOf cs then
    if ((cs.drop srcLit.length).dropWhile pyIsSpace).isEmpty then
      match (cs.drop srcLit.length).reverse.dropWhile (fun c => c = '\n') with
      | c :: _ => some [c]
      | [] => none
    else some (((cs.drop srcLit.length).dropWhile pyIsSpace).takeWhile (fun c => c ≠ '\n'))
  else none

/-- Scan as `re.search` of the plain-text attribution fallback. -/
def findSourceText : List Char → Option (List Char)
  | [] => none
  | c :: rest =>
    match trySourceTextAt (c :: rest) with
    | some g => some g
    | none => findSourceText rest

/-- The literal removed by `re.sub(r"\n\*Source:\*.*", "", quote, flags=re.DOTALL)`. -/
def cutSrcLit : List Char := "\n*Source:*".data

/-- Truncate at the first occurrence of a newline followed by the
attribution literal: with DOTALL the `.*` extends to the end of the
string, so the single leftmost match removes the whole tail. -/
def cutSourceSuffix : List Char → List Char
  | [] => []
  | c :: rest =>
    if cutSrcLit.isPrefixOf (c :: rest) then [] else c :: cutSourceSuffix rest

/-- Python `s.replace("**", "")`, scanning left to right. -/
def removeDoubleStars : List Char → List Char
  | '*' :: '*' :: rest => removeDoubleStars rest
  | c :: rest => c :: removeDoubleStars rest
  | [] => []

/-- Python `s.replace("  ", " ")`, scanning left to right in one pass. -/
def collapseSpaces : List Char → List Char
  | ' ' :: ' ' :: rest => ' ' :: collapseSpaces rest
  | c :: rest => c :: collapseSpaces rest
  | [] => []

/-- The cleaned quote body: remove the attribution tail, strip link
markup, remove bold markers, collapse double spaces, strip. -/
def cleanQuoteBody (seg : List Char) : List Char :=
  pyStrip (collapseSpaces (removeDoubleStars (cleanLinks (cutSourceSuffix seg))))

/-- Assemble one quote chunk from its segment and the extracted
attribution: the `"Quote from {title}: "` prefix is added only when the
star-stripped title is truthy (non-empty), and `trim_empty_lines` runs
on the prefixed text. -/
def mkQuote (date : String) (i : Nat) (seg : List Char)
    (title : Option (List Char)) (url : Option (List Char)) : Chunk :=
  { text := String.mk (trimEmptyLines
      (match title with
       | some t =>
         if t.isEmpty then cleanQuoteBody seg
         else "Quote from ".data ++ t ++ ": ".data ++ cleanQuoteBody seg
       | none => cleanQuoteBody seg))
    category := "quote", index := i, date := date
    source := url.map String.mk
    sourceName := title.map String.mk }

/-- Process one quote segment: try the markdown-link attribution, then
the plain-text fallback; `replace("*", "")` strips stars from the title. -/
def quoteChunkOf (date : String) (i : Nat) (seg : List Char) : Chunk :=
  match findSourceLink seg with
  | some (titleRaw, url) =>
    mkQuote date i seg (some (titleRaw.filter (fun c => c ≠ '*'))) (some url)
  | none =>
    match findSourceText seg with
    | some g => mkQuote date i seg (some (g.filter (fun c => c ≠ '*'))) none
    | none => mkQuote date i seg none none

/-- The quote-chunk loop `for i, quote in enumerate(quotes[1:], 1)`. -/
def quoteChunksFrom (date : String) : Nat → List (List Char) → List Chunk
  | _, [] => []
  | i, seg :: rest => quoteChunkOf date i seg :: quoteChunksFrom date (i + 1) rest

/-- The recognized idea-section marker. -/
def ideaMarker : List Char := "3 IDEAS FROM ME".data

/-- The recognized quotes-section marker. -/
def quotesMarker : List Char := "2 QUOTES FROM OTHERS".data

/-- The recognized question-section marker. -/
def questionMarker : List Char := "1 QUESTION FOR YOU".data

/-- The sign-off literal truncating question sections. -/
def untilLit : List Char := "Until next week".data

/-- Process the question section: remove the marker text, strip,
truncate at the sign-off, strip, trim; always `index = 1`. -/
def questionChunkOf (date : String) (s : List Char) : Chunk :=
  { text := String.mk (trimEmptyLines
      (pyStrip (cutBeforeSub untilLit (pyStrip (removeAllSub questionMarker s)))))
    category := "question", index := 1, date := date }

/-- Per-section normalisation before dispatch: `section.strip()` then
`section.replace("---", "")`. -/
def prepSection (sec : List Char) : List Char :=
  removeAllSub "---".data (pyStrip sec)

/-- Dispatch one section: the three markers are tested as substrings of
the whole normalised section text, in order, and an unmatched section
contributes no chunks. -/
def processSection (issueDate : String) (sec : List Char) : List Chunk :=
  if hasSub ideaMarker (prepSection sec) then
    ideaChunksFrom issueDate 1 ((splitRoman (prepSection sec)).drop 1)
  else if hasSub quotesMarker (prepSection sec) then
    quoteChunksFrom issueDate 1 ((splitRoman (prepSection sec)).drop 1)
  else if hasSub questionMarker (prepSection sec) then
    [questionChunkOf issueDate (prepSection sec)]
  else []

/-- Model of `parse_newsletter(md_text, issue_date)` from `src/pipeline/utils.py`. -/
def parseNewsletter (mdText : String) (issueDate : String := "Unknown") : List Chunk :=
  ((splitSections (removeShareLines mdText.data)).map (processSection issueDate)).flatten

/-! ## Lemmas: the stable descending sort -/

theorem insertDesc_perm (c : Cand) (l : List Cand) :
    List.Perm (insertDesc c l) (c :: l) := by
  induction l with
  | nil => simp [insertDesc]
  | cons d ds ih =>
    by_cases h : d.2 ≤ c.2
    · simp [insertDesc, h]
    · simp only [insertDesc, if_neg h]
      exact (ih.cons d).trans (List.Perm.swap c d ds)

theorem sortRerank_perm (l : List Cand) : List.Perm (sortRerank l) l := by
  induction l with
  | nil => simp [sortRerank]
  | cons c cs ih => exact (insertDesc_perm c (sortRerank cs)).trans (ih.cons c)

theorem insertDesc_pairwise {c : Cand} {l : List Cand}
    (h : l.Pairwise (fun a b => b.2 ≤ a.2)) :
    (insertDesc c l).Pairwise (fun a b => b.2 ≤ a.2) := by
  induction l with
  | nil => simp [insertDesc]
  | cons d ds ih =>
    rw [List.pairwise_cons] at h
    obtain ⟨hd, hds⟩ := h
    by_cases hdc : d.2 ≤ c.2
    · simp only [insertDesc, if_pos hdc]
      refine List.pairwise_cons.mpr ⟨?_, List.pairwise_cons.mpr ⟨hd, hds⟩⟩
      intro x hx
      rcases List.mem_cons.mp hx with rfl | hx2
      · exact hdc
      · exact le_trans (hd x hx2) hdc
    · simp only [insertDesc, if_neg hdc]
      refine List.pairwise_cons.mpr ⟨?_, ih hds⟩
      intro x hx
      have hx2 : x ∈ c :: ds := (insertDesc_perm c ds).mem_iff.mp hx
      rcases List.mem_cons.mp hx2 with rfl | hx3
      · omega
      · exact hd x hx3

theorem sortRerank_pairwise (l : List Cand) :
    (sortRerank l).Pairwise (fun a b => b.2 ≤ a.2) := by
  induction l with
  | nil => simp [sortRerank]
  | cons c cs ih => exact insertDesc_pairwise ih

theorem filter_insertDesc (s : Int) (c : Cand) (l : List Cand) :
    (insertDesc c l).filter (fun x => decide (x.2 = s)) =
      if c.2 = s then c :: l.filter (fun x => decide (x.2 = s))
      else l.filter (fun x => decide (x.2 = s)) := by
  induction l with
  | nil => by_cases hcs : c.2 = s <;> simp [insertDesc, List.filter, hcs]
  | cons d ds ih =>
    by_cases hdc : d.2 ≤ c.2
    · simp only [insertDesc, if_pos hdc, List.filter_cons]
      by_cases hcs : c.2 = s <;> by_cases hds : d.2 = s <;> simp [hcs, hds]
    · simp only [insertDesc, if_neg hdc, List.filter_cons]
      by_cases hds : d.2 = s
      · have hcs : ¬c.2 = s := by
          intro hcs
          exact hdc (by omega)
        simp [hds, hcs, ih]
      · by_cases hcs : c.2 = s <;> simp [hds, hcs, ih]

theorem sortRerank_filter (s : Int) (l : List Cand) :
    (sortRerank l).filter (fun x => decide (x.2 = s)) =
      l.filter (fun x => decide (x.2 = s)) := by
  induction l with
  | nil => rfl
  | cons c cs ih =>
    by_cases hcs : c.2 = s <;>
      simp [sortRerank, filter_insertDesc, hcs, List.filter_cons, ih]

/-- C5: the rerank ordering step is a stable descending sort on rerank
score. The output is a permutation of its input; any candidate with a
strictly higher score precedes any with a strictly lower one (pairwise
the later score is less than or equal to the earlier); and for every
score value, the candidates carrying exactly that score appear in the
output in the same relative order as in the input produced by initial
retrieval. -/
theorem rerank_sort_stable_descending (l : List Cand) :
    List.Perm (sortRerank l) l ∧
    (sortRerank l).Pairwise (fun a b => b.2 ≤ a.2) ∧
    ∀ s : Int, (sortRerank l).filter (fun x => decide (x.2 = s)) =
      l.filter (fun x => decide (x.2 = s)) :=
  ⟨sortRerank_perm l, sortRerank_pairwise l, fun s => sortRerank_filter s l⟩

/-! ## Lemmas: the filter loop and the response shape -/

theorem filterLimit_sublist (ms : Int) (f t : Option Date) :
    ∀ (l : List Cand) (lim : Int),
      List.Sublist (filterLimit ms f t lim l) (filterAll ms f t l) := by
  intro l
  induction l with
  | nil => intro lim; simp [filterLimit, filterAll]
  | cons d ds ih =>
    intro lim
    by_cases h1 : d.2 < ms
    · have e1 : filterLimit ms f t lim (d :: ds) = filterLimit ms f t lim ds := by
        simp [filterLimit, h1]
      have e2 : filterAll ms f t (d :: ds) = filterAll ms f t ds := by
        simp [filterAll, List.filter_cons, h1]
      rw [e1, e2]
      exact ih lim
    · cases hp : passesDate f t d.1 with
      | false =>
        have e1 : filterLimit ms f t lim (d :: ds) = filterLimit ms f t lim ds := by
          simp [filterLimit, h1, hp]
        have e2 : filterAll ms f t (d :: ds) = filterAll ms f t ds := by
          simp [filterAll, List.filter_cons, hp]
        rw [e1, e2]
        exact ih lim
      | true =>
        have e2 : filterAll ms f t (d :: ds) = d :: filterAll ms f t ds := by
          simp [filterAll, List.filter_cons, h1, hp]
        by_cases h3 : lim ≤ 1
        · have e1 : filterLimit ms f t lim (d :: ds) = [d] := by
            simp [filterLimit, h1, hp, h3]
          rw [e1, e2]
          exact (List.nil_sublist _).cons₂ d
        · have e1 : filterLimit ms f t lim (d :: ds) =
              d :: filterLimit ms f t (lim - 1) ds := by
            simp [filterLimit, h1, hp, h3]
          rw [e1, e2]
          exact (ih (lim - 1)).cons₂ d

theorem mem_filterLimit {ms : Int} {f t : Option Date} {lim : Int} {l : List Cand}
    {c : Cand} (hc : c ∈ filterLimit ms f t lim l) :
    ms ≤ c.2 ∧ passesDate f t c.1 = true := by
  have h1 : c ∈ filterAll ms f t l := (filterLimit_sublist ms f t l lim).subset hc
  have h2 : c ∈ l ∧ ms ≤ c.2 ∧ passesDate f t c.1 = true := by
    simpa [filterAll] using h1
  exact ⟨h2.2.1, h2.2.2⟩

theorem filterLimit_eq_take (ms : Int) (f t : Option Date) :
    ∀ (l : List Cand) (lim : Int), 1 ≤ lim →
      filterLimit ms f t lim l = (filterAll ms f t l).take lim.toNat := by
  intro l
  induction l with
  | nil => intro lim hlim; simp [filterLimit, filterAll]
  | cons d ds ih =>
    intro lim hlim
    by_cases h1 : d.2 < ms
    · have e1 : filterLimit ms f t lim (d :: ds) = filterLimit ms f t lim ds := by
        simp [filterLimit, h1]
      have e2 : filterAll ms f t (d :: ds) = filterAll ms f t ds := by
        simp [filterAll, List.filter_cons, h1]
      rw [e1, e2, ih lim hlim]
    · cases hp : passesDate f t d.1 with
      | false =>
        have e1 : filterLimit ms f t lim (d :: ds) = filterLimit ms f t lim ds := by
          simp [filterLimit, h1, hp]
        have e2 : filterAll ms f t (d :: ds) = filterAll ms f t ds := by
          simp [filterAll, List.filter_cons, hp]
        rw [e1, e2, ih lim hlim]
      | true =>
        have e2 : filterAll ms f t (d :: ds) = d :: filterAll ms f t ds := by
          simp [filterAll, List.filter_cons, h1, hp]
        by_cases h3 : lim ≤ 1
        · have hlim1 : lim = 1 := by omega
          subst hlim1
          have e1 : filterLimit ms f t 1 (d :: ds) = [d] := by
            simp [filterLimit, h1, hp]
          rw [e1, e2]
          rfl
        · have e1 : filterLimit ms f t lim (d :: ds) =
              d :: filterLimit ms f t (lim - 1) ds := by
            simp [filterLimit, h1, hp, h3]
          have hn : lim.toNat = (lim - 1).toNat + 1 := by omega
          rw [e1, e2, ih (lim - 1) (by omega), hn, List.take_succ_cons]

theorem searchNewsletter_ok_form (q : String) (fd td : Option String) (ms lim : Int)
    (hits : List Payload) (cross : List Int) {f t : Option Date}
    (hp1 : parseBound fromDateMsg fd = Except.ok f)
    (hp2 : parseBound toDateMsg td = Except.ok t) :
    searchNewsletter q fd td ms lim hits cross =
      if hits.isEmpty then SearchResult.ok q ⟨fd, td, ms⟩ 0 []
      else if (filterLimit ms f t lim (sortRerank (hits.zip cross))).isEmpty then
        SearchResult.ok q ⟨fd, td, ms⟩ 0 []
      else
        SearchResult.ok q ⟨fd, td, ms⟩
          ((filterLimit ms f t lim (sortRerank (hits.zip cross))).map toResultItem).length
          ((filterLimit ms f t lim (sortRerank (hits.zip cross))).map toResultItem) := by
  unfold searchNewsletter
  rw [hp1, hp2]

theorem searchNewsletter_ok_parses {q : String} {fd td : Option String} {ms lim : Int}
    {hits : List Payload} {cross : List Int} {q2 : String} {fl : Filters} {n : Nat}
    {rs : List ResultItem}
    (h : searchNewsletter q fd td ms lim hits cross = SearchResult.ok q2 fl n rs) :
    ∃ f t, parseBound fromDateMsg fd = Except.ok f ∧
      parseBound toDateMsg td = Except.ok t := by
  unfold searchNewsletter at h
  cases hp1 : parseBound fromDateMsg fd with
  | error e => rw [hp1] at h; simp at h
  | ok f =>
    rw [hp1] at h
    cases hp2 : parseBound toDateMsg td with
    | error e => rw [hp2] at h; simp at h
    | ok t => exact ⟨f, t, rfl, rfl⟩

/-- Counterexample to C1: with the code's default `min_score` (which is
`0.0`, not an unbounded-low threshold), a query whose single candidate
has rerank score `-1` returns no results, while the same call with
`min_score = -2` returns that candidate — so the candidate was dropped
by the score filter under the default, contradicting the claim. -/
theorem c1_default_drops_negative_cex :
    searchNewsletter "q" none none defaultMinScore 10
        [⟨some "T", some "2020-01-01", some "idea", some "u", some "t"⟩] [-1] =
      SearchResult.ok "q" ⟨none, none, 0⟩ 0 [] ∧
    searchNewsletter "q" none none (-2) 10
        [⟨some "T", some "2020-01-01", some "idea", some "u", some "t"⟩] [-1] =
      SearchResult.ok "q" ⟨none, none, -2⟩ 1
        [ResultItem.mk "T" "2020-01-01" "idea" "u" "t" (-1)] :=
  ⟨by decide, by decide⟩

/-- C1 (amended): the default `min_score` is `0.0`, not effectively
negative infinity; under any `min_score` (the default included) every
result returned by a successful search has rerank score at least
`min_score`, so under the default every negatively-scored candidate is
dropped by the score filter. -/
theorem minScore_default_drops_negatives :
    defaultMinScore = 0 ∧
    ∀ (q : String) (fd td : Option String) (ms lim : Int) (hits : List Payload)
      (cross : List Int) (q2 : String) (fl : Filters) (n : Nat) (rs : List ResultItem),
      searchNewsletter q fd td ms lim hits cross = SearchResult.ok q2 fl n rs →
      ∀ r ∈ rs, ms ≤ r.score := by
  refine ⟨rfl, ?_⟩
  intro q fd td ms lim hits cross q2 fl n rs h r hr
  obtain ⟨f, t, hp1, hp2⟩ := searchNewsletter_ok_parses h
  rw [searchNewsletter_ok_form q fd td ms lim hits cross hp1 hp2] at h
  by_cases h1 : hits.isEmpty
  · rw [if_pos h1] at h
    injection h with e1 e2 e3 e4
    rw [← e4] at hr
    simp at hr
  · rw [if_neg h1] at h
    by_cases h2 : (filterLimit ms f t lim (sortRerank (hits.zip cross))).isEmpty
    · rw [if_pos h2] at h
      injection h with e1 e2 e3 e4
      rw [← e4] at hr
      simp at hr
    · rw [if_neg h2] at h
      injection h with e1 e2 e3 e4
      rw [← e4] at hr
      obtain ⟨c, hc, rfl⟩ := List.mem_map.mp hr
      have := (mem_filterLimit hc).1
      simpa [toResultItem] using this

/-- Witness for C1: the amended theorem applied to a concrete search
whose single candidate scores `5` under `min_score = 0`. -/
theorem c1_min_score_witness :
    (0 : Int) ≤ (ResultItem.mk "T" "2020-01-01" "idea" "u" "t" 5).score := by
  have h := minScore_default_drops_negatives.2 "q" none none 0 10
    [⟨some "T", some "2020-01-01", some "idea", some "u", some "t"⟩] [5]
    "q" ⟨none, none, 0⟩ 1 [ResultItem.mk "T" "2020-01-01" "idea" "u" "t" 5] (by decide)
  exact h (ResultItem.mk "T" "2020-01-01" "idea" "u" "t" 5) (by decide)

/-- Counterexample to C2: an empty index and a populated index whose
only candidate is removed by the score filter produce exactly the same
response value, so the two situations are not distinguishable. -/
theorem c2_empty_vs_filtered_cex :
    searchNewsletter "q" none none 0 10 [] [] =
      searchNewsletter "q" none none 0 10
        [⟨some "T", some "2020-01-01", some "idea", some "u", some "t"⟩] [-1] := by
  decide

/-- C2 (amended): the empty-index outcome and the
all-candidates-filtered outcome coincide: both return the successful
response with the echoed query and filters, `total_results = 0` and an
empty result list; the caller cannot tell them apart. -/
theorem emptyIndex_and_filteredOut_agree :
    ∀ (q : String) (fd td : Option String) (ms lim : Int) (hits : List Payload)
      (cross : List Int) (f t : Option Date),
      parseBound fromDateMsg fd = Except.ok f →
      parseBound toDateMsg td = Except.ok t →
      (hits = [] →
        searchNewsletter q fd td ms lim hits cross =
          SearchResult.ok q ⟨fd, td, ms⟩ 0 []) ∧
      (filterLimit ms f t lim (sortRerank (hits.zip cross)) = [] →
        searchNewsletter q fd td ms lim hits cross =
          SearchResult.ok q ⟨fd, td, ms⟩ 0 []) := by
  intro q fd td ms lim hits cross f t hp1 hp2
  constructor
  · intro he
    subst he
    rw [searchNewsletter_ok_form q fd td ms lim [] cross hp1 hp2]
    rfl
  · intro hf
    rw [searchNewsletter_ok_form q fd td ms lim hits cross hp1 hp2]
    by_cases h1 : hits.isEmpty
    · rw [if_pos h1]
    · rw [if_neg h1, if_pos (by simp [hf])]

/-- Witness for C2: the amended theorem applied to the empty index. -/
theorem c2_agree_witness :
    searchNewsletter "q" none none 0 10 [] [] =
      SearchResult.ok "q" ⟨none, none, 0⟩ 0 [] :=
  (emptyIndex_and_filteredOut_agree "q" none none 0 10 [] [] none none rfl rfl).1 rfl

/-- C6: limit enforcement under the contract `limit: integer > 0` from
the spec. In every successful response `total_results` equals the
length of the returned `results` list; and for `limit ≥ 1` the results
are exactly the first `limit` entries of the sorted-then-filtered
candidate sequence, so when more candidates survive the score and date
filters than `limit`, exactly `limit` results are returned. (For
`limit ≤ 0`, outside the spec contract, the loop still accepts one
candidate before its post-append check fires.) -/
theorem limit_enforcement_and_total_count :
    (∀ (q : String) (fd td : Option String) (ms lim : Int) (hits : List Payload)
        (cross : List Int) (q2 : String) (fl : Filters) (n : Nat) (rs : List ResultItem),
      searchNewsletter q fd td ms lim hits cross = SearchResult.ok q2 fl n rs →
      n = rs.length) ∧
    (∀ (q : String) (fd td : Option String) (ms lim : Int) (hits : List Payload)
        (cross : List Int) (f t : Option Date) (q2 : String) (fl : Filters) (n : Nat)
        (rs : List ResultItem),
      1 ≤ lim →
      parseBound fromDateMsg fd = Except.ok f →
      parseBound toDateMsg td = Except.ok t →
      searchNewsletter q fd td ms lim hits cross = SearchResult.ok q2 fl n rs →
      rs = ((filterAll ms f t (sortRerank (hits.zip cross))).take lim.toNat).map toResultItem ∧
      (lim.toNat < (filterAll ms f t (sortRerank (hits.zip cross))).length →
        rs.length = lim.toNat)) := by
  constructor
  · intro q fd td ms lim hits cross q2 fl n rs h
    obtain ⟨f, t, hp1, hp2⟩ := searchNewsletter_ok_parses h
    rw [searchNewsletter_ok_form q fd td ms lim hits cross hp1 hp2] at h
    by_cases h1 : hits.isEmpty
    · rw [if_pos h1] at h
      injection h with e1 e2 e3 e4
      subst e3
      subst e4
      rfl
    · rw [if_neg h1] at h
      by_cases h2 : (filterLimit ms f t lim (sortRerank (hits.zip cross))).isEmpty
      · rw [if_pos h2] at h
        injection h with e1 e2 e3 e4
        subst e3
        subst e4
        rfl
      · rw [if_neg h2] at h
        injection h with e1 e2 e3 e4
        subst e3
        subst e4
        rfl
  · intro q fd td ms lim hits cross f t q2 fl n rs hlim hp1 hp2 h
    rw [searchNewsletter_ok_form q fd td ms lim hits cross hp1 hp2,
      filterLimit_eq_take ms f t (sortRerank (hits.zip cross)) lim hlim] at h
    by_cases h1 : hits.isEmpty
    · rw [if_pos h1] at h
      injection h with e1 e2 e3 e4
      have hz : hits = [] := by simpa using h1
      subst hz
      subst e4
      constructor
      · simp [filterAll, sortRerank]
      · intro hlen
        simp [filterAll, sortRerank] at hlen
    · rw [if_neg h1] at h
      by_cases h2 : ((filterAll ms f t (sortRerank (hits.zip cross))).take lim.toNat).isEmpty
      · rw [if_pos h2] at h
        injection h with e1 e2 e3 e4
        subst e4
        have htake : (filterAll ms f t (sortRerank (hits.zip cross))).take lim.toNat = [] := by
          simpa using h2
        constructor
        · simp [htake]
        · intro hlen
          rcases List.take_eq_nil_iff.mp htake with h3 | h3
          · omega
          · rw [h3] at hlen
            simp at hlen
      · rw [if_neg h2] at h
        injection h with e1 e2 e3 e4
        constructor
        · exact e4.symm
        · intro hlen
          rw [← e4]
          simp only [List.length_map, List.length_take]
          omega

/-- Counterexample record for the out-of-contract edge of C6: with
`limit = 0` and one qualifying candidate, the loop's post-append break
returns one result, not zero — this is why the theorem for C6 carries
the spec's `limit ≥ 1` precondition. -/
theorem c6_limit_zero_edge :
    searchNewsletter "q" none none 0 0 [⟨some "T", none, none, none, none⟩] [5] =
      SearchResult.ok "q" ⟨none, none, 0⟩ 1 [ResultItem.mk "T" "" "" "" "" 5] := by
  decide

/-- Witness for C6: the theorem applied to a search with two surviving
candidates and `limit = 1` returns exactly one result. -/
theorem c6_limit_witness :
    ([ResultItem.mk "T" "" "" "" "" 5] : List ResultItem).length = (1 : Int).toNat := by
  have h := limit_enforcement_and_total_count.2 "q" none none 0 1
      [⟨some "T", none, none, none, none⟩, ⟨some "U", none, none, none, none⟩] [5, 4]
      none none "q" ⟨none, none, 0⟩ 1 [ResultItem.mk "T" "" "" "" "" 5]
      (by decide) rfl rfl (by decide)
  exact h.2 (by decide)

/-! ## Lemmas: date parsing and the date filter -/

theorem daysInMonth_le (y m : Nat) : daysInMonth y m ≤ 31 := by
  unfold daysInMonth
  split_ifs <;> omega

theorem digit_ne_dash {c : Char} (h : c.isDigit = true) : ¬c = '-' := by
  intro he
  subst he
  exact absurd h (by decide)

theorem wellFormed_parses {s : String} (hw : wellFormedYMD s = true) :
    ∃ dd, pyStrptimeYmd s = some dd := by
  unfold wellFormedYMD at hw
  split at hw
  next a b c d e f g h2 heq =>
    simp only [Bool.and_eq_true, decide_eq_true_eq] at hw
    obtain ⟨⟨⟨⟨⟨⟨⟨⟨⟨⟨⟨⟨ha, hb⟩, hc⟩, hd⟩, he⟩, hf⟩, hg⟩, hh⟩, hy1⟩, hm1⟩, hm2⟩, hd1⟩, hd2⟩ := hw
    rw [pyStrptimeYmd, heq]
    simp only [pyStrptimeYmdL]
    rw [if_pos (by simp [ha, hb, hc, hd])]
    have hsplit : splitFirstDash [e, f, '-', g, h2] = some ([e, f], [g, h2]) := by
      simp [splitFirstDash, digit_ne_dash he, digit_ne_dash hf]
    rw [hsplit]
    have hv1 : validTwo [e, f] 12 = true := by
      simp [validTwo, he, hf, hm1, hm2]
    have hv2 : validTwo [g, h2] 31 = true := by
      simp [validTwo, hg, hh, hd1]
      exact le_trans hd2 (daysInMonth_le _ _)
    simp [hv1, hv2, hy1, hd2]
  next =>
    exact absurd hw (by simp)

/-- C3: invalid date bounds are rejected before any retrieval work, and
well-formed `YYYY-MM-DD` bounds are never rejected. First conjunct: an
unparseable `from_date` yields the `from_date` error dictionary for
every possible index content and reranker output (the response does not
depend on the retrieval oracles, so no retrieval work influences it).
Second conjunct: with a parseable (or absent) `from_date`, an
unparseable `to_date` likewise yields the `to_date` error. Third
conjunct: when both bounds are absent or well-formed `YYYY-MM-DD`
strings, the call never returns an error dictionary. -/
theorem invalid_dates_rejected_valid_accepted :
    (∀ (q : String) (fd td : Option String) (ms lim : Int) (s : String),
      fd = some s → pyStrptimeYmd s = none →
      ∀ (hits : List Payload) (cross : List Int),
        searchNewsletter q fd td ms lim hits cross = SearchResult.error fromDateMsg) ∧
    (∀ (q : String) (fd td : Option String) (ms lim : Int) (s : String),
      (∀ u, fd = some u → ∃ d, pyStrptimeYmd u = some d) →
      td = some s → pyStrptimeYmd s = none →
      ∀ (hits : List Payload) (cross : List Int),
        searchNewsletter q fd td ms lim hits cross = SearchResult.error toDateMsg) ∧
    (∀ (q : String) (fd td : Option String) (ms lim : Int),
      (∀ s, fd = some s → wellFormedYMD s = true) →
      (∀ s, td = some s → wellFormedYMD s = true) →
      ∀ (hits : List Payload) (cross : List Int) (msg : String),
        ¬searchNewsletter q fd td ms lim hits cross = SearchResult.error msg) := by
  refine ⟨?_, ?_, ?_⟩
  · intro q fd td ms lim s hfd hbad hits cross
    subst hfd
    unfold searchNewsletter
    have hp : parseBound fromDateMsg (some s) = Except.error fromDateMsg := by
      simp [parseBound, hbad]
    rw [hp]
  · intro q fd td ms lim s hfd htd hbad hits cross
    subst htd
    have hp2 : parseBound toDateMsg (some s) = Except.error toDateMsg := by
      simp [parseBound, hbad]
    cases fd with
    | none =>
      unfold searchNewsletter
      rw [show parseBound fromDateMsg none = Except.ok none from rfl, hp2]
    | some u =>
      obtain ⟨d, hd⟩ := hfd u rfl
      have hp1 : parseBound fromDateMsg (some u) = Except.ok (some d) := by
        simp [parseBound, hd]
      unfold searchNewsletter
      rw [hp1, hp2]
  · intro q fd td ms lim hfd htd hits cross msg
    have hp1 : ∃ f, parseBound fromDateMsg fd = Except.ok f := by
      cases fd with
      | none => exact ⟨none, rfl⟩
      | some s =>
        obtain ⟨d, hd⟩ := wellFormed_parses (hfd s rfl)
        exact ⟨some d, by simp [parseBound, hd]⟩
    have hp2 : ∃ t, parseBound toDateMsg td = Except.ok t := by
      cases td with
      | none => exact ⟨none, rfl⟩
      | some s =>
        obtain ⟨d, hd⟩ := wellFormed_parses (htd s rfl)
        exact ⟨some d, by simp [parseBound, hd]⟩
    obtain ⟨f, hf⟩ := hp1
    obtain ⟨t, ht⟩ := hp2
    rw [searchNewsletter_ok_form q fd td ms lim hits cross hf ht]
    by_cases h1 : hits.isEmpty
    · rw [if_pos h1]
      intro h
      cases h
    · rw [if_neg h1]
      by_cases h2 : (filterLimit ms f t lim (sortRerank (hits.zip cross))).isEmpty
      · rw [if_pos h2]
        intro h
        cases h
      · rw [if_neg h2]
        intro h
        cases h

/-- Witness for C3: the spec's own example `from_date = "13-45-2020"` is
rejected with the `from_date` error regardless of index content, while
the well-formed leap-day bound `"2020-02-29"` is accepted. -/
theorem c3_reject_witness :
    searchNewsletter "q" (some "13-45-2020") none 0 10 [] [] =
      SearchResult.error fromDateMsg ∧
    ¬searchNewsletter "q" (some "2020-02-29") none 0 10 [] [] =
      SearchResult.error fromDateMsg := by
  constructor
  · exact invalid_dates_rejected_valid_accepted.1 "q" (some "13-45-2020") none 0 10
      "13-45-2020" rfl (by decide) [] []
  · exact invalid_dates_rejected_valid_accepted.2.2 "q" (some "2020-02-29") none 0 10
      (fun s hs => by cases hs; decide) (fun s hs => by cases hs) [] [] fromDateMsg

/-- C4: leniency and inclusiveness of the date filter used inside the
search loop. A candidate with no stored date is never removed; a
candidate whose date string fails to parse as `YYYY-MM-DD` is never
removed, whatever the bounds; and a candidate with a parseable date is
removed exactly when that date is strictly before a supplied
`from_date` or strictly after a supplied `to_date` (the inclusive
interval semantics). -/
theorem date_filter_lenient_and_inclusive :
    (∀ (f t : Option Date) (p : Payload), p.date = none → passesDate f t p = true) ∧
    (∀ (f t : Option Date) (p : Payload) (s : String),
      p.date = some s → pyStrptimeYmd s = none → passesDate f t p = true) ∧
    (∀ (f t : Option Date) (p : Payload) (s : String) (d : Date),
      p.date = some s → pyStrptimeYmd s = some d →
      (passesDate f t p = false ↔
        (∃ fd, f = some fd ∧ dateLt d fd = true) ∨
          (∃ td, t = some td ∧ dateLt td d = true))) := by
  refine ⟨?_, ?_, ?_⟩
  · intro f t p hp
    simp [passesDate, hp]
  · intro f t p s hp hparse
    by_cases hs : s = ""
    · subst hs
      simp [passesDate, hp]
    · simp [passesDate, hp, hs, hparse]
  · intro f t p s d hp hparse
    have hs : ¬s = "" := by
      intro h
      subst h
      rw [show pyStrptimeYmd "" = none from rfl] at hparse
      exact Option.noConfusion hparse
    rw [passesDate, hp]
    cases f <;> cases t <;> simp [hs, hparse]
    rename_i fd td
    cases hdf : dateLt d fd <;> simp [hdf]

/-- Witness for C4: a candidate with stored date `"garbled"` (which
fails to parse) survives the date filter even under tight bounds. -/
theorem c4_lenient_witness :
    passesDate (some ⟨2020, 1, 1⟩) (some ⟨2021, 1, 1⟩)
      ⟨none, some "garbled", none, none, none⟩ = true :=
  date_filter_lenient_and_inclusive.2.1 (some ⟨2020, 1, 1⟩) (some ⟨2021, 1, 1⟩)
    ⟨none, some "garbled", none, none, none⟩ "garbled" rfl (by decide)

/-! ## Lemmas: Roman-numeral splitting and idea chunks -/

theorem srm_length (cs : List Char) : ∀ (cur run : List Char),
    (srm cur run cs).length = countRomanAux (!run.isEmpty) cs + 1 := by
  induction cs with
  | nil => intro cur run; simp [srm, countRomanAux]
  | cons c rest ih =>
    intro cur run
    by_cases h1 : isIVX c = true
    · have e1 : srm cur run (c :: rest) = srm cur (c :: run) rest := by
        simp [srm, h1]
      have e2 : countRomanAux (!run.isEmpty) (c :: rest) = countRomanAux true rest := by
        simp [countRomanAux, h1]
      rw [e1, e2, ih]
      rfl
    · cases hr : run with
      | nil =>
        have e1 : srm cur [] (c :: rest) = srm (c :: cur) [] rest := by
          simp [srm, h1]
        have e2 : countRomanAux (!([] : List Char).isEmpty) (c :: rest) =
            countRomanAux false rest := by
          simp [countRomanAux, h1]
        rw [e1, e2, ih]
        rfl
      | cons r0 rs =>
        by_cases h2 : c = '.'
        · subst h2
          have e1 : srm cur (r0 :: rs) ('.' :: rest) = cur.reverse :: srm [] [] rest := by
            simp [srm, h1]
          have e2 : countRomanAux (!(r0 :: rs : List Char).isEmpty) ('.' :: rest) =
              1 + countRomanAux false rest := by
            simp [countRomanAux, h1]
          rw [e1, e2]
          simp [ih]
          omega
        · have e1 : srm cur (r0 :: rs) (c :: rest) =
              srm (c :: ((r0 :: rs) ++ cur)) [] rest := by
            simp [srm, h1, h2]
          have e2 : countRomanAux (!(r0 :: rs : List Char).isEmpty) (c :: rest) =
              countRomanAux false rest := by
            simp [countRomanAux, h1, h2]
          rw [e1, e2, ih]
          rfl

theorem splitRoman_length (cs : List Char) :
    (splitRoman cs).length = countRoman cs + 1 := by
  have h := srm_length cs [] []
  simpa [splitRoman, countRoman] using h

theorem ideaChunksFrom_length (date : String) :
    ∀ (segs : List (List Char)) (i : Nat), (ideaChunksFrom date i segs).length = segs.length := by
  intro segs
  induction segs with
  | nil => intro i; rfl
  | cons seg rest ih => intro i; simp [ideaChunksFrom, ih]

theorem ideaChunksFrom_map_index (date : String) :
    ∀ (segs : List (List Char)) (i : Nat),
      (ideaChunksFrom date i segs).map Chunk.index = List.range' i segs.length := by
  intro segs
  induction segs with
  | nil => intro i; rfl
  | cons seg rest ih =>
    intro i
    simp [ideaChunksFrom, ih, List.range'_succ]

theorem ideaChunksFrom_map_text (date : String) :
    ∀ (segs : List (List Char)) (i : Nat),
      (ideaChunksFrom date i segs).map Chunk.text =
        segs.map (fun seg => String.mk ("Idea from James Clear: ".data ++ trimEmptyLines seg)) := by
  intro segs
  induction segs with
  | nil => intro i; rfl
  | cons seg rest ih =>
    intro i
    simp [ideaChunksFrom, ih]

theorem ideaChunksFrom_mem (date : String) :
    ∀ (segs : List (List Char)) (i : Nat) (c : Chunk), c ∈ ideaChunksFrom date i segs →
      c.category = "idea" ∧ c.date = date ∧ i ≤ c.index := by
  intro segs
  induction segs with
  | nil => intro i c hc; simp [ideaChunksFrom] at hc
  | cons seg rest ih =>
    intro i c hc
    rcases List.mem_cons.mp hc with rfl | hc2
    · exact ⟨rfl, rfl, le_refl i⟩
    · obtain ⟨h1, h2, h3⟩ := ih (i + 1) c hc2
      exact ⟨h1, h2, by omega⟩

theorem quoteChunksFrom_mem (date : String) :
    ∀ (segs : List (List Char)) (i : Nat) (c : Chunk), c ∈ quoteChunksFrom date i segs →
      c.category = "quote" ∧ c.date = date ∧ i ≤ c.index := by
  intro segs
  induction segs with
  | nil => intro i c hc; simp [quoteChunksFrom] at hc
  | cons seg rest ih =>
    intro i c hc
    rcases List.mem_cons.mp hc with rfl | hc2
    · refine ⟨?_, ?_, ?_⟩ <;> simp [quoteChunkOf, mkQuote] <;>
        cases findSourceLink seg <;> cases findSourceText seg <;> simp [mkQuote]
    · obtain ⟨h1, h2, h3⟩ := ih (i + 1) c hc2
      exact ⟨h1, h2, by omega⟩

/-- C7: for every idea section containing exactly `N` Roman-numeral
list markers (separator matches of `[IVX]+\.` in the normalised section
text), the chunker produces exactly `N` idea chunks, in segment order,
with index values `1..N`; each chunk text is the segment trimmed of
blank lines and prefixed with `"Idea from James Clear: "`. The split
yields `N + 1` segments and the first (the text before the first
marker) is discarded. -/
theorem idea_section_chunking :
    ∀ (sec : List Char) (date : String) (N : Nat),
      hasSub ideaMarker (prepSection sec) = true →
      countRoman (prepSection sec) = N →
      (processSection date sec).length = N ∧
      (processSection date sec).map Chunk.index = List.range' 1 N ∧
      (∀ c ∈ processSection date sec, c.category = "idea" ∧ c.date = date) ∧
      (processSection date sec).map Chunk.text =
        ((splitRoman (prepSection sec)).drop 1).map
          (fun seg => String.mk ("Idea from James Clear: ".data ++ trimEmptyLines seg)) ∧
      (splitRoman (prepSection sec)).length = N + 1 := by
  intro sec date N hmark hcount
  have hps : processSection date sec =
      ideaChunksFrom date 1 ((splitRoman (prepSection sec)).drop 1) := by
    unfold processSection
    rw [if_pos hmark]
  have hlen := splitRoman_length (prepSection sec)
  have hdrop : ((splitRoman (prepSection sec)).drop 1).length = N := by
    simp [List.length_drop, hlen, hcount]
  refine ⟨?_, ?_, ?_, ?_, ?_⟩
  · rw [hps, ideaChunksFrom_length]
    exact hdrop
  · rw [hps, ideaChunksFrom_map_index, hdrop]
  · intro c hc
    rw [hps] at hc
    obtain ⟨h1, h2, -⟩ := ideaChunksFrom_mem date _ 1 c hc
    exact ⟨h1, h2⟩
  · rw [hps, ideaChunksFrom_map_text]
  · rw [hlen, hcount]

/-- Witness for C7: the spec's end-to-end idea section with two Roman
markers yields exactly two chunks with indices `[1, 2]`. -/
theorem c7_idea_witness :
    (processSection "2020-01-01"
        "3 IDEAS FROM ME\nI. First idea text\nII. Second idea text".data).length = 2 ∧
    (processSection "2020-01-01"
        "3 IDEAS FROM ME\nI. First idea text\nII. Second idea text".data).map Chunk.index =
      List.range' 1 2 := by
  have h := idea_section_chunking
    "3 IDEAS FROM ME\nI. First idea text\nII. Second idea text".data "2020-01-01" 2
    (by decide) (by decide)
  exact ⟨h.1, h.2.1⟩

/-- Counterexample to C9: an issue body with no `## ` heading at all
whose plain text mentions the idea marker still produces an idea chunk,
because dispatch tests the markers as substrings of the whole section
text, not of the leading heading text. -/
theorem c9_heading_dispatch_cex :
    parseNewsletter "no heading here: 3 IDEAS FROM ME\nI. x" "2020-01-01" =
      [⟨"Idea from James Clear: x", "idea", 1, "2020-01-01", none, none⟩] := by
  decide

/-- C9 (amended): section dispatch is decided by case-sensitive
substring match of the three recognized markers against the whole
normalised section text (not only its leading heading); a section
containing none of the three markers contributes zero chunks and no
error, and an issue body none of whose sections contains a marker
substring yields an empty chunk list. -/
theorem section_dispatch_whole_text :
    (∀ (date : String) (sec : List Char),
      hasSub ideaMarker (prepSection sec) = false →
      hasSub quotesMarker (prepSection sec) = false →
      hasSub questionMarker (prepSection sec) = false →
      processSection date sec = []) ∧
    (∀ (body date : String),
      (∀ sec ∈ splitSections (removeShareLines body.data),
        hasSub ideaMarker (prepSection sec) = false ∧
        hasSub quotesMarker (prepSection sec) = false ∧
        hasSub questionMarker (prepSection sec) = false) →
      parseNewsletter body date = []) := by
  have part1 : ∀ (date : String) (sec : List Char),
      hasSub ideaMarker (prepSection sec) = false →
      hasSub quotesMarker (prepSection sec) = false →
      hasSub questionMarker (prepSection sec) = false →
      processSection date sec = [] := by
    intro date sec h1 h2 h3
    simp [processSection, h1, h2, h3]
  refine ⟨part1, ?_⟩
  intro body date hall
  unfold parseNewsletter
  suffices h : ∀ (l : List (List Char)),
      (∀ sec ∈ l,
        hasSub ideaMarker (prepSection sec) = false ∧
        hasSub quotesMarker (prepSection sec) = false ∧
        hasSub questionMarker (prepSection sec) = false) →
      (l.map (processSection date)).flatten = [] by
    exact h (splitSections (removeShareLines body.data)) hall
  intro l
  induction l with
  | nil => intro hl; rfl
  | cons sec rest ih =>
    intro hl
    obtain ⟨h1, h2, h3⟩ := hl sec (List.mem_cons_self sec rest)
    have hrest := fun s hs => hl s (List.mem_cons_of_mem sec hs)
    simp [part1 date sec h1 h2 h3, ih hrest]

/-- Witness for C9: a body whose single section contains no marker
yields the empty chunk list. -/
theorem c9_dispatch_witness : parseNewsletter "hello world" "D" = [] :=
  section_dispatch_whole_text.2 "hello world" "D" (by decide)

/-- C10: totality and output invariants of the chunker. The embedding
of `parse_newsletter` is a total function (it is defined by structural
or fuel-bounded recursion, so it terminates on every body and issue
date and raises nothing), and every chunk it returns carries one of the
three categories, an index at least 1, and the supplied issue date. -/
theorem parse_newsletter_total_invariants :
    ∀ (body date : String) (c : Chunk), c ∈ parseNewsletter body date →
      (c.category = "idea" ∨ c.category = "quote" ∨ c.category = "question") ∧
      1 ≤ c.index ∧ c.date = date := by
  intro body date c hc
  unfold parseNewsletter at hc
  rw [List.mem_flatten] at hc
  obtain ⟨chunks, hch, hcc⟩ := hc
  obtain ⟨sec, hsec, rfl⟩ := List.mem_map.mp hch
  unfold processSection at hcc
  by_cases h1 : hasSub ideaMarker (prepSection sec) = true
  · rw [if_pos h1] at hcc
    obtain ⟨ha, hb, hc3⟩ := ideaChunksFrom_mem date _ 1 c hcc
    exact ⟨Or.inl ha, hc3, hb⟩
  · rw [if_neg h1] at hcc
    by_cases h2 : hasSub quotesMarker (prepSection sec) = true
    · rw [if_pos h2] at hcc
      obtain ⟨ha, hb, hc3⟩ := quoteChunksFrom_mem date _ 1 c hcc
      exact ⟨Or.inr (Or.inl ha), hc3, hb⟩
    · rw [if_neg h2] at hcc
      by_cases h3 : hasSub questionMarker (prepSection sec) = true
      · rw [if_pos h3] at hcc
        simp at hcc
        subst hcc
        exact ⟨Or.inr (Or.inr rfl), le_refl 1, rfl⟩
      · rw [if_neg h3] at hcc
        simp at hcc

/-- Witness for C10: the invariants instantiated on a concrete parsed
chunk. -/
theorem c10_invariants_witness :
    ((⟨"Idea from James Clear: x", "idea", 1, "D", none, none⟩ : Chunk).category = "idea" ∨
      (⟨"Idea from James Clear: x", "idea", 1, "D", none, none⟩ : Chunk).category = "quote" ∨
      (⟨"Idea from James Clear: x", "idea", 1, "D", none, none⟩ : Chunk).category = "question") ∧
    1 ≤ (⟨"Idea from James Clear: x", "idea", 1, "D", none, none⟩ : Chunk).index ∧
    (⟨"Idea from James Clear: x", "idea", 1, "D", none, none⟩ : Chunk).date = "D" :=
  parse_newsletter_total_invariants "## 3 IDEAS FROM ME\nI. x" "D"
    ⟨"Idea from James Clear: x", "idea", 1, "D", none, none⟩ (by decide)

/-! ## Lemmas: strip, line-trim and the quote prefix -/

theorem dropWhile_app_ex {p : Char → Bool} (x : List Char) {h : Char} (y : List Char)
    (hh : p h = false) : ∃ x2, List.dropWhile p (x ++ h :: y) = x2 ++ h :: y := by
  induction x with
  | nil => exact ⟨[], by simp [List.dropWhile_cons, hh]⟩
  | cons c x ih =>
    by_cases hc : p c = true
    · obtain ⟨x2, hx2⟩ := ih
      exact ⟨x2, by simp [List.dropWhile_cons, hc, hx2]⟩
    · exact ⟨c :: x, by simp [List.dropWhile_cons, hc]⟩

theorem dropTrailingWs_last {a : List Char} {lastc : Char}
    (hl : pyIsSpace lastc = false) : dropTrailingWs (a ++ [lastc]) = a ++ [lastc] := by
  have e : (a ++ [lastc]).reverse = lastc :: a.reverse := by simp
  rw [dropTrailingWs, e]
  simp [List.dropWhile_cons, hl]

theorem dropTrailingWs_pre {a : List Char} {h : Char} {b : List Char}
    (hh : pyIsSpace h = false) :
    ∃ b2, dropTrailingWs (a ++ h :: b) = a ++ h :: b2 := by
  obtain ⟨x2, hx2⟩ := dropWhile_app_ex (p := pyIsSpace) b.reverse (y := a.reverse) hh
  refine ⟨x2.reverse, ?_⟩
  have e : (a ++ h :: b).reverse = b.reverse ++ h :: a.reverse := by simp
  rw [dropTrailingWs, e, hx2]
  simp

theorem splitNl_ne_nil (cs : List Char) : ¬splitNl cs = [] := by
  induction cs with
  | nil => simp [splitNl]
  | cons c rest ih =>
    by_cases hc : c = '\n'
    · simp [splitNl, hc]
    · simp only [splitNl, if_neg hc]
      cases h : splitNl rest with
      | nil => exact absurd h ih
      | cons a l => simp [List.modifyHead]

theorem splitNl_app_noNl (p q : List Char) (hp : ∀ c ∈ p, ¬c = '\n') :
    splitNl (p ++ q) = (splitNl q).modifyHead (p ++ ·) := by
  induction p with
  | nil =>
    cases h : splitNl q with
    | nil => exact absurd h (splitNl_ne_nil q)
    | cons a l => simp [h, List.modifyHead]
  | cons c p ih =>
    have hc : ¬c = '\n' := hp c (List.mem_cons_self c p)
    have hp2 : ∀ x ∈ p, ¬x = '\n' := fun x hx => hp x (List.mem_cons_of_mem c hx)
    rw [List.cons_append, splitNl.eq_def]
    simp only [if_neg hc]
    rw [ih hp2]
    cases h : splitNl q with
    | nil => exact absurd h (splitNl_ne_nil q)
    | cons a l => simp [h, List.modifyHead]

theorem keepLine_head {h : Char} (x : List Char) (hh : pyIsSpace h = false) :
    keepLine (h :: x) = true := by
  obtain ⟨b2, hb⟩ := dropTrailingWs_pre (a := []) (b := x) hh
  simp only [List.nil_append] at hb
  unfold keepLine pyStrip
  rw [List.dropWhile_cons, if_neg (by simp [hh]), hb]
  simp

theorem head_dropWhile {p : Char → Bool} : ∀ (l : List Char) {c : Char} {r : List Char},
    l.dropWhile p = c :: r → p c = false := by
  intro l
  induction l with
  | nil => intro c r h; simp at h
  | cons a l ih =>
    intro c r h
    rw [List.dropWhile_cons] at h
    by_cases ha : p a = true
    · rw [if_pos ha] at h
      exact ih h
    · rw [if_neg ha] at h
      injection h with h1 h2
      subst h1
      simpa using ha

theorem pyStrip_head {x : List Char} {c : Char} {r : List Char}
    (h : pyStrip x = c :: r) : pyIsSpace c = false := by
  unfold pyStrip dropTrailingWs at h
  obtain ⟨t, ht⟩ := List.dropWhile_suffix (l := (x.dropWhile pyIsSpace).reverse) (p := pyIsSpace)
  have hy : x.dropWhile pyIsSpace = (c :: r) ++ t.reverse := by
    have h2 := congrArg List.reverse ht
    rw [List.reverse_append, List.reverse_reverse] at h2
    rw [h] at h2
    exact h2.symm
  exact head_dropWhile x (by rw [hy, List.cons_append])

theorem pyStrip_last {x : List Char} {c : Char} {r : List Char}
    (h : (pyStrip x).reverse = c :: r) : pyIsSpace c = false := by
  unfold pyStrip dropTrailingWs at h
  rw [List.reverse_reverse] at h
  exact head_dropWhile _ h

theorem intercalate_cons_ex (a : List Char) (l : List (List Char)) :
    ∃ X, List.intercalate ['\n'] (a :: l) = a ++ X := by
  cases l with
  | nil => exact ⟨[], by simp [List.intercalate]⟩
  | cons b bs =>
    exact ⟨'\n' :: List.intercalate ['\n'] (b :: bs), by
      simp [List.intercalate, List.intersperse]⟩

theorem trim_keeps_head_block {hp : Char} (p : List Char) {hq : Char} (q2 : List Char)
    (hhp : pyIsSpace hp = false)
    (hnl : ∀ c ∈ hp :: p, ¬c = '\n')
    (hhq : pyIsSpace hq = false)
    (hql : ∀ c r, (hq :: q2).reverse = c :: r → pyIsSpace c = false) :
    ∃ tail, trimEmptyLines ((hp :: p) ++ hq :: q2) = (hp :: p) ++ tail := by
  have hqn : ¬hq = '\n' := by
    intro he
    rw [he] at hhq
    exact absurd hhq (by decide)
  obtain ⟨lastc, rr, hrev⟩ : ∃ lastc rr, (hq :: q2).reverse = lastc :: rr := by
    cases hq2 : (hq :: q2).reverse with
    | nil =>
      have hlen := congrArg List.length hq2
      simp at hlen
    | cons lc rr => exact ⟨lc, rr, rfl⟩
  have hlast : pyIsSpace lastc = false := hql lastc rr hrev
  have hqeq : hq :: q2 = rr.reverse ++ [lastc] := by
    have h2 := congrArg List.reverse hrev
    rw [List.reverse_reverse] at h2
    simpa using h2
  -- the whole block is already stripped: non-whitespace head and last
  have hstep1 : (hp :: (p ++ hq :: q2)).dropWhile pyIsSpace = hp :: (p ++ hq :: q2) := by
    rw [List.dropWhile_cons, if_neg (by simp [hhp])]
  have hstep2 : dropTrailingWs (hp :: (p ++ hq :: q2)) = hp :: (p ++ hq :: q2) := by
    have e : hp :: (p ++ hq :: q2) = (hp :: (p ++ rr.reverse)) ++ [lastc] := by
      rw [hqeq]
      simp
    rw [e]
    exact dropTrailingWs_last hlast
  have hpyStrip : pyStrip (hp :: (p ++ hq :: q2)) = hp :: (p ++ hq :: q2) := by
    rw [pyStrip, hstep1, hstep2]
  -- split into lines, the first line keeps the head block
  obtain ⟨l1, ls, hsq⟩ : ∃ l1 ls, splitNl (hq :: q2) = (hq :: l1) :: ls := by
    rw [splitNl.eq_def]
    simp only [if_neg hqn]
    cases hsq2 : splitNl q2 with
    | nil => exact absurd hsq2 (splitNl_ne_nil q2)
    | cons a l => exact ⟨a, l, by simp [List.modifyHead]⟩
  have hsplit : splitNl (hp :: (p ++ hq :: q2)) = (hp :: (p ++ hq :: l1)) :: ls := by
    have h2 := splitNl_app_noNl (hp :: p) (hq :: q2) hnl
    rw [hsq] at h2
    simpa [List.modifyHead] using h2
  have hkeep : keepLine (hp :: (p ++ hq :: l1)) = true :=
    keepLine_head (p ++ hq :: l1) hhp
  have hfilter : (((hp :: (p ++ hq :: l1)) :: ls).filter keepLine) =
      (hp :: (p ++ hq :: l1)) :: (ls.filter keepLine) := by
    rw [List.filter_cons, if_pos hkeep]
  obtain ⟨X, hX⟩ := intercalate_cons_ex (hp :: (p ++ hq :: l1)) (ls.filter keepLine)
  -- final strip keeps the head block
  obtain ⟨b2, hb2⟩ := dropTrailingWs_pre (a := hp :: p) (h := hq) (b := l1 ++ X) hhq
  have hb2n : dropTrailingWs (hp :: (p ++ hq :: (l1 ++ X))) = hp :: (p ++ hq :: b2) := by
    simpa using hb2
  refine ⟨hq :: b2, ?_⟩
  simp only [List.cons_append]
  rw [trimEmptyLines, hpyStrip, hsplit, hfilter, hX]
  have e2 : (hp :: (p ++ hq :: l1)) ++ X = hp :: (p ++ hq :: (l1 ++ X)) := by
    simp
  rw [e2, pyStrip, List.dropWhile_cons, if_neg (by simp [hhp]), hb2n]

theorem findSourceLink_none : ∀ {seg : List Char},
    hasSub srcLit seg = false → findSourceLink seg = none := by
  intro seg
  induction seg with
  | nil => intro h; rfl
  | cons c rest ih =>
    intro h
    rw [hasSub] at h
    simp only [Bool.or_eq_false_iff] at h
    obtain ⟨h1, h2⟩ := h
    have ht : trySourceLinkAt (c :: rest) = none := by
      unfold trySourceLinkAt
      rw [if_neg (by simp [h1])]
    simp [findSourceLink, ht, ih h2]

theorem findSourceText_none : ∀ {seg : List Char},
    hasSub srcLit seg = false → findSourceText seg = none := by
  intro seg
  induction seg with
  | nil => intro h; rfl
  | cons c rest ih =>
    intro h
    rw [hasSub] at h
    simp only [Bool.or_eq_false_iff] at h
    obtain ⟨h1, h2⟩ := h
    have ht : trySourceTextAt (c :: rest) = none := by
      unfold trySourceTextAt
      rw [if_neg (by simp [h1])]
    simp [findSourceText, ht, ih h2]

/-- Counterexample to C8: the quote segment whose own text is
`"Quote from X"` contains no `*Source:*` attribution, so the chunk has
null source metadata and no prefix is added — yet its text does start
with `"Quote from"`, contradicting the claim that a source-less chunk's
text never starts with that prefix. -/
theorem c8_quote_prefix_cex :
    hasSub srcLit "Quote from X".data = false ∧
    (quoteChunkOf "2020-01-01" 1 "Quote from X".data).sourceName = none ∧
    (quoteChunkOf "2020-01-01" 1 "Quote from X".data).source = none ∧
    "Quote from".data.isPrefixOf
      (quoteChunkOf "2020-01-01" 1 "Quote from X".data).text.data = true := by
  decide

/-- C8 (amended): quote attribution handling. If the segment contains no
`*Source:*` occurrence, the chunk's `source_name` and `source_url` are
null and its text is exactly the cleaned segment body with no prefix
added (so it starts with `"Quote from"` only when the segment itself
does). If the attribution matches the markdown-link pattern, both
`source_name` and `source_url` are non-null (the name is the
star-stripped title); and provided the star-stripped title is non-empty
and single-line and the cleaned body is non-empty, the chunk text
starts with `"Quote from {title}: "`. -/
theorem quote_attribution_handling :
    (∀ (date : String) (i : Nat) (seg : List Char),
      hasSub srcLit seg = false →
      (quoteChunkOf date i seg).sourceName = none ∧
      (quoteChunkOf date i seg).source = none ∧
      (quoteChunkOf date i seg).text = String.mk (trimEmptyLines (cleanQuoteBody seg))) ∧
    (∀ (date : String) (i : Nat) (seg : List Char) (t u : List Char),
      findSourceLink seg = some (t, u) →
      (quoteChunkOf date i seg).sourceName =
        some (String.mk (t.filter (fun c => c ≠ '*'))) ∧
      (quoteChunkOf date i seg).source = some (String.mk u) ∧
      (¬t.filter (fun c => c ≠ '*') = [] →
        (∀ c ∈ t, ¬c = '\n') →
        ¬cleanQuoteBody seg = [] →
        ∃ tail, (quoteChunkOf date i seg).text.data =
          "Quote from ".data ++ t.filter (fun c => c ≠ '*') ++ ": ".data ++ tail)) := by
  constructor
  · intro date i seg h
    rw [quoteChunkOf, findSourceLink_none h, findSourceText_none h]
    exact ⟨rfl, rfl, rfl⟩
  · intro date i seg t u hfind
    rw [quoteChunkOf, hfind]
    refine ⟨rfl, rfl, ?_⟩
    intro htne hnl hbody
    -- the prefixed branch of mkQuote is taken
    obtain ⟨hqc, bq2, hbq⟩ : ∃ hqc bq2, cleanQuoteBody seg = hqc :: bq2 := by
      cases hb : cleanQuoteBody seg with
      | nil => exact absurd hb hbody
      | cons a l => exact ⟨a, l, rfl⟩
    have hhq : pyIsSpace hqc = false := pyStrip_head (x :=
      collapseSpaces (removeDoubleStars (cleanLinks (cutSourceSuffix seg)))) hbq
    have hzz : pyStrip (collapseSpaces (removeDoubleStars (cleanLinks (cutSourceSuffix seg)))) =
        hqc :: bq2 := hbq
    have hql : ∀ c r, (hqc :: bq2).reverse = c :: r → pyIsSpace c = false := by
      intro c r hcr
      exact pyStrip_last (show
        (pyStrip (collapseSpaces (removeDoubleStars (cleanLinks (cutSourceSuffix seg))))).reverse =
          c :: r by rw [hzz]; exact hcr)
    have hlit1 : ∀ x, x ∈ "uote from ".data → ¬x = '\n' := by decide
    have hlit2 : ∀ x, x ∈ ": ".data → ¬x = '\n' := by decide
    have hnlp : ∀ c ∈ 'Q' :: ("uote from ".data ++ t.filter (fun c => c ≠ '*') ++ ": ".data),
        ¬c = '\n' := by
      intro c hc
      rcases List.mem_cons.mp hc with rfl | hc2
      · decide
      rcases List.mem_append.mp hc2 with hc3 | hc4
      · rcases List.mem_append.mp hc3 with hc5 | hc6
        · exact hlit1 c hc5
        · exact hnl c (List.mem_of_mem_filter hc6)
      · exact hlit2 c hc4
    obtain ⟨tail, htail⟩ := @trim_keeps_head_block 'Q'
      ("uote from ".data ++ t.filter (fun c => c ≠ '*') ++ ": ".data) hqc bq2
      (by decide) hnlp hhq hql
    have hne : (t.filter (fun c => c ≠ '*')).isEmpty = false := by
      cases hfe : t.filter (fun c => c ≠ '*') with
      | nil => exact absurd hfe htne
      | cons a l => rfl
    refine ⟨tail, ?_⟩
    show trimEmptyLines
        (if (t.filter (fun c => c ≠ '*')).isEmpty then cleanQuoteBody seg
         else "Quote from ".data ++ t.filter (fun c => c ≠ '*') ++ ": ".data ++
           cleanQuoteBody seg) =
      "Quote from ".data ++ t.filter (fun c => c ≠ '*') ++ ": ".data ++ tail
    rw [hne]
    rw [if_neg (by simp)]
    have harg : "Quote from ".data ++ t.filter (fun c => c ≠ '*') ++ ": ".data ++
        cleanQuoteBody seg =
        ('Q' :: ("uote from ".data ++ t.filter (fun c => c ≠ '*') ++ ": ".data)) ++
          hqc :: bq2 := by
      rw [hbq, show "Quote from ".data = 'Q' :: "uote from ".data from rfl]
      simp
    rw [harg, htail, show "Quote from ".data = 'Q' :: "uote from ".data from rfl]
    simp

/-- Witness for C8: the amended theorem applied to a segment with a
markdown-link attribution. -/
theorem c8_quote_witness :
    (quoteChunkOf "D" 1 "Hi\n*Source:* [A B](u)".data).sourceName =
      some (String.mk ("A B".data.filter (fun c => c ≠ '*'))) ∧
    (quoteChunkOf "D" 1 "Hi\n*Source:* [A B](u)".data).source =
      some (String.mk "u".data) ∧
    ∃ tail, (quoteChunkOf "D" 1 "Hi\n*Source:* [A B](u)".data).text.data =
      "Quote from ".data ++ "A B".data.filter (fun c => c ≠ '*') ++ ": ".data ++ tail := by
  have h := quote_attribution_handling.2 "D" 1 "Hi\n*Source:* [A B](u)".data
    "A B".data "u".data (by decide)
  exact ⟨h.1, h.2.1, h.2.2 (by decide) (by decide) (by decide)⟩
